import Mathlib

/-!
Shallow embedding of cove's numeric cast classification engine
(src/impls/primitives.rs, src/impls/nonzero.rs, src/impls/bitwise.rs,
src/errors.rs).  Machine integers are modelled as `Int` together with an
explicit two's-complement reduction, and IEEE-754 bit patterns as explicit
sign/exponent/fraction fields with rational value semantics.
-/

namespace Cove

/-- A primitive machine integer type: signedness and bit width.  `usize` and
`isize` are the 64-bit instances (the build's pointer width). -/
structure IntType where
  signed : Bool
  width : Nat
  wpos : 0 < width

/-- `<$to>::MIN` as a mathematical integer. -/
def IntType.min (t : IntType) : Int :=
  if t.signed = true then -(2 ^ (t.width - 1)) else 0

/-- `<$to>::MAX` as a mathematical integer. -/
def IntType.max (t : IntType) : Int :=
  if t.signed = true then 2 ^ (t.width - 1) - 1 else 2 ^ t.width - 1

/-- Rust `as` between integer types: two's-complement bit truncation into the
target's width. -/
def IntType.wrap (t : IntType) (x : Int) : Int :=
  if t.signed = true ∧ 2 ^ (t.width - 1) ≤ x % 2 ^ t.width
  then x % 2 ^ t.width - 2 ^ t.width
  else x % 2 ^ t.width

def u8 : IntType := ⟨false, 8, by decide⟩
def u16 : IntType := ⟨false, 16, by decide⟩
def u32 : IntType := ⟨false, 32, by decide⟩
def u64 : IntType := ⟨false, 64, by decide⟩
def u128 : IntType := ⟨false, 128, by decide⟩
def usize : IntType := ⟨false, 64, by decide⟩
def i8 : IntType := ⟨true, 8, by decide⟩
def i16 : IntType := ⟨true, 16, by decide⟩
def i32 : IntType := ⟨true, 32, by decide⟩
def i64 : IntType := ⟨true, 64, by decide⟩
def i128 : IntType := ⟨true, 128, by decide⟩
def isize : IntType := ⟨true, 64, by decide⟩

/-- `LossyCastError { from, to }` (src/errors.rs:63-69): carries both the
original and the lossy value. -/
structure LossyCastError (α β : Type) where
  from' : α
  to' : β
deriving DecidableEq

instance {ε α : Type} [DecidableEq ε] [DecidableEq α] : DecidableEq (Except ε α) := fun a b =>
  match a, b with
  | .ok x, .ok y =>
    if h : x = y then .isTrue (congrArg Except.ok h)
    else .isFalse (fun c => h (Except.ok.inj c))
  | .error x, .error y =>
    if h : x = y then .isTrue (congrArg Except.error h)
    else .isFalse (fun c => h (Except.error.inj c))
  | .ok _, .error _ => .isFalse (fun c => Except.noConfusion c)
  | .error _, .ok _ => .isFalse (fun c => Except.noConfusion c)

/-- `cast!(integer $from => $to)` `cast_impl` (src/impls/primitives.rs:17-29):
`self.try_into().map_err(|_| LossyCastError { from: self, to: self as $to })`.
`try_into` between integer types succeeds exactly on values inside the
target's range. -/
def castInt (t : IntType) (x : Int) : Except (LossyCastError Int Int) Int :=
  if t.min ≤ x ∧ x ≤ t.max then .ok x else .error ⟨x, t.wrap x⟩

/-- `impl Closest<$to> for LossyCastError<$from, $to>` on integer pairs
(src/impls/primitives.rs:31-43): `match self.from < 0 { true => MIN, false => MAX }`. -/
def LossyCastError.closestInt (t : IntType) (e : LossyCastError Int Int) : Int :=
  if e.from' < 0 then t.min else t.max

/-- Blanket `impl Closest<T> for Result<T, Error>` (src/impls/blanket.rs:59-64):
`self.unwrap_or_else(Closest::closest)`. -/
def closestOr {ε α : Type} (g : ε → α) : Except ε α → α
  | .ok v => v
  | .error e => g e

/-- `value.cast::<$to>().closest()` for an integer source and integer target. -/
def closestIntCast (t : IntType) (x : Int) : Int :=
  closestOr (LossyCastError.closestInt t) (castInt t x)

/-- Outcome of a cast into a `NonZero*` type through `FailedCastError`
(src/errors.rs:93-110): the failure carries only the original value. -/
inductive NZResult (α : Type) where
  | ok (v : Int)
  | failed (from' : α)
deriving DecidableEq

/-- `cast!(from_primitive $primitive => $nonzero)` `cast_impl`
(src/impls/nonzero.rs:127-138): cast to the root primitive — any lossy cast
becomes `FailedCastError::new(self)` via the `?` — and then
`NonZero::new(primitive).ok_or_else(|| FailedCastError::new(self))`. -/
def castIntToNonZero (t : IntType) (x : Int) : NZResult Int :=
  match castInt t x with
  | .error _ => .failed x
  | .ok v => if v = 0 then .failed x else .ok v

/-- `impl Closest<$nonzero> for FailedCastError<$primitive, $nonzero>`
(src/impls/nonzero.rs:140-148):
`NonZero::new(self.from.cast().closest()).unwrap_or(new_unchecked(1))`. -/
def closestPrimNZ (t : IntType) (x : Int) : Int :=
  if closestIntCast t x = 0 then 1 else closestIntCast t x

/-- `cast!(from_nonzero ...)` `cast_impl` for NonZero → NonZero
(src/impls/nonzero.rs:28-42): delegate to the primitive cast on `self.get()`;
on error, the truncated primitive `error.to` is rewrapped with
`new_unchecked`.  The integer recorded in the error's `to` field is the value
handed to `new_unchecked`. -/
def castNonZeroToNonZero (t : IntType) (x : Int) : Except (LossyCastError Int Int) Int :=
  match castInt t x with
  | .ok v => .ok v
  | .error e => .error ⟨x, e.to'⟩

/-- `impl Closest<$nonzero> for LossyCastError<$from, $nonzero>`
(src/impls/nonzero.rs:44-57): rebuild the primitive `LossyCastError` from the
unwrapped fields and take its closest; the result is handed to
`new_unchecked`. -/
def closestNonZeroToNonZero (t : IntType) (e : LossyCastError Int Int) : Int :=
  LossyCastError.closestInt t ⟨e.from', e.to'⟩

/-- An IEEE-754 binary format: exponent and explicit-mantissa bit counts. -/
structure FPFormat where
  eb : Nat
  mb : Nat
  ebpos : 1 < eb
  mbpos : 0 < mb

def f32fmt : FPFormat := ⟨8, 23, by decide, by decide⟩

def f64fmt : FPFormat := ⟨11, 52, by decide, by decide⟩

/-- `TOTAL_BITS`: the width of the carrier integer type `$int`. -/
def FPFormat.totalBits (fmt : FPFormat) : Nat := 1 + fmt.eb + fmt.mb

/-- `EXPONENT_MASK` (also the exponent field of NaN / infinity). -/
def FPFormat.emax (fmt : FPFormat) : Nat := 2 ^ fmt.eb - 1

/-- `EXPONENT_BIAS = EXPONENT_MASK >> 1`. -/
def FPFormat.bias (fmt : FPFormat) : Nat := (2 ^ fmt.eb - 1) / 2

/-- A floating point bit pattern, split into its sign, biased-exponent and
fraction fields. -/
structure FP where
  sign : Bool
  exp : Nat
  frac : Nat
deriving DecidableEq

/-- The fields fit the format. -/
def FP.valid (fmt : FPFormat) (f : FP) : Prop :=
  f.exp < 2 ^ fmt.eb ∧ f.frac < 2 ^ fmt.mb

instance (fmt : FPFormat) (f : FP) : Decidable (f.valid fmt) := by
  unfold FP.valid
  infer_instance

/-- `to_bits`: sign bit on top, then the exponent, then the fraction. -/
def FP.toBits (fmt : FPFormat) (f : FP) : Nat :=
  (if f.sign then 2 ^ (fmt.eb + fmt.mb) else 0) + f.exp * 2 ^ fmt.mb + f.frac

def FP.isNaNb (fmt : FPFormat) (f : FP) : Bool :=
  decide (f.exp = fmt.emax ∧ f.frac ≠ 0)

def FP.isPosInfb (fmt : FPFormat) (f : FP) : Bool :=
  decide (f.exp = fmt.emax ∧ f.frac = 0 ∧ f.sign = false)

def FP.isNegInfb (fmt : FPFormat) (f : FP) : Bool :=
  decide (f.exp = fmt.emax ∧ f.frac = 0 ∧ f.sign = true)

def FP.isFinite (fmt : FPFormat) (f : FP) : Prop := f.exp ≠ fmt.emax

/-- Common denominator of all finite values of the format: `2^(bias + mb)`. -/
def FPFormat.scale (fmt : FPFormat) : Nat := 2 ^ (fmt.bias + fmt.mb)

/-- The numerator of a finite bit pattern over the fixed denominator
`fmt.scale`: subnormal (`± frac · 2^1`) when the exponent field is zero,
normal (`± (2^mb + frac) · 2^exp`) otherwise. -/
def FP.sval (fmt : FPFormat) (f : FP) : Int :=
  (if f.sign then -1 else 1) *
    (if f.exp = 0
     then ((2 * f.frac : Nat) : Int)
     else (((2 ^ fmt.mb + f.frac) * 2 ^ f.exp : Nat) : Int))

/-- The real value of a finite bit pattern, as a rational. -/
def FP.val (fmt : FPFormat) (f : FP) : ℚ :=
  (f.sval fmt : ℚ) / (fmt.scale : ℚ)

/-- Truncation toward zero of a rational: the value semantics of the float →
integer `as` cast on in-range values. -/
def qtrunc (q : ℚ) : Int := if q < 0 then -⌊-q⌋ else ⌊q⌋

/-- Truncation toward zero of the fraction `a / b`, by natural division. -/
def itruncScaled (a : Int) (b : Nat) : Int :=
  if a < 0 then -(((-a).toNat / b : Nat) : Int) else ((a.toNat / b : Nat) : Int)

/-- Rounding half away from zero of the fraction `a / b`, by natural
division. -/
def iroundScaled (a : Int) (b : Nat) : Int :=
  if a < 0 then -((((-a).toNat * 2 + b) / (2 * b) : Nat) : Int)
  else (((a.toNat * 2 + b) / (2 * b) : Nat) : Int)

/-- The `is_int` computation of `cast!(float_to_int ...)`
(src/impls/primitives.rs:90-126), on the raw bits: extract the exponent; a
zero exponent is an integer exactly when the mantissa bits are clear; the
maximal exponent (infinity / NaN) never is; otherwise subtract the bias
(`checked_sub`, `None` meaning a fraction) and test the mantissa bits that
remain below the binary point (`checked_shr`, shifts of the full carrier
width or more giving mask 0). -/
def floatExponent (fmt : FPFormat) (bits : Nat) : Nat :=
  (bits >>> fmt.mb) &&& (2 ^ fmt.eb - 1)

def floatIsInt (fmt : FPFormat) (bits : Nat) : Bool :=
  if floatExponent fmt bits = 0 then decide (bits &&& (2 ^ fmt.mb - 1) = 0)
  else if floatExponent fmt bits = 2 ^ fmt.eb - 1 then false
  else if floatExponent fmt bits < (2 ^ fmt.eb - 1) / 2 then false
  else
    decide (bits &&&
      (if floatExponent fmt bits - (2 ^ fmt.eb - 1) / 2 < fmt.totalBits
       then (2 ^ fmt.mb - 1) >>> (floatExponent fmt bits - (2 ^ fmt.eb - 1) / 2)
       else 0) = 0)

/-- The precomputed `$max` macro argument: a finite float constant (every one
in the source tables is a whole number, given here by its exact integer
value), or `f32::INFINITY` (the f32 → u128 entry). -/
inductive MaxBound where
  | fin (m : Int)
  | inf
deriving DecidableEq

/-- `self >= <$to>::MIN as $from`: IEEE `>=` against the finite, exactly
representable integer constant `MIN` (every integer `MIN` is 0 or a power of
two); false when `self` is NaN.  The finite comparison
`m ≤ self` is taken over the common denominator: `m · scale ≤ sval`. -/
def fgeMin (fmt : FPFormat) (f : FP) (m : Int) : Bool :=
  if f.isNaNb fmt then false
  else if f.isPosInfb fmt then true
  else if f.isNegInfb fmt then false
  else decide (m * fmt.scale ≤ f.sval fmt)

/-- `self <= $max`: IEEE `<=` against the precomputed bound; false when
`self` is NaN. -/
def fleMax (fmt : FPFormat) (f : FP) : MaxBound → Bool
  | .fin m =>
    if f.isNaNb fmt then false
    else if f.isPosInfb fmt then false
    else if f.isNegInfb fmt then true
    else decide (f.sval fmt ≤ m * fmt.scale)
  | .inf => !f.isNaNb fmt

/-- Clamp an integer into the target's range. -/
def IntType.clamp (t : IntType) (n : Int) : Int := Min.min t.max (Max.max t.min n)

/-- Rust `as` from a float to an integer: saturating, with NaN mapped to 0. -/
def FP.asInt (fmt : FPFormat) (t : IntType) (f : FP) : Int :=
  if f.isNaNb fmt then 0
  else if f.isPosInfb fmt then t.max
  else if f.isNegInfb fmt then t.min
  else t.clamp (itruncScaled (f.sval fmt) fmt.scale)

/-- `cast!(float_to_int $from as $int => ($to, $max))` `cast_impl`
(src/impls/primitives.rs:86-140): bit-inspect for integrality, compare
against `<$to>::MIN as $from` and the precomputed `$max`, then
`Ok(self as $to)` or `LossyCastError { from: self, to: self as $to }`. -/
def castFloatToInt (fmt : FPFormat) (t : IntType) (maxB : MaxBound) (f : FP) :
    Except (LossyCastError FP Int) Int :=
  if floatIsInt fmt (f.toBits fmt) && fgeMin fmt f t.min && fleMax fmt f maxB
  then .ok (f.asInt fmt t)
  else .error ⟨f, f.asInt fmt t⟩

/-- Round half away from zero of a rational: the value semantics of
`f32::round` / `f64::round` on finite values. -/
def roundQ (q : ℚ) : Int := if q < 0 then -⌊-q + 1/2⌋ else ⌊q + 1/2⌋

/-- `impl Closest<$to> for LossyCastError<$from, $to>` on float → integer
pairs (src/impls/primitives.rs:142-161), std path: `self.from.round() as $to`.
`round` keeps NaN and the infinities, and its finite results (nearest
integer, ties away from zero) are exactly representable in the same format,
so the composition with the saturating `as` is taken at the value level,
over the common denominator. -/
def closestFloatIntErr (fmt : FPFormat) (t : IntType) (e : LossyCastError FP Int) : Int :=
  if e.from'.isNaNb fmt then 0
  else if e.from'.isPosInfb fmt then t.max
  else if e.from'.isNegInfb fmt then t.min
  else t.clamp (iroundScaled (e.from'.sval fmt) fmt.scale)

/-- `value.cast::<$to>().closest()` for a float source and integer target. -/
def closestFloatIntCast (fmt : FPFormat) (t : IntType) (maxB : MaxBound) (f : FP) : Int :=
  closestOr (closestFloatIntErr fmt t) (castFloatToInt fmt t maxB f)

/-- `cast!(from_primitive $float => $nonzero)` / `cast!(from_float_to_signed ...)`
`cast_impl` (src/impls/nonzero.rs:127-138 and 161-172): cast to the root
primitive — a lossy cast becomes `FailedCastError::new(self)` — then
`NonZero::new(primitive).ok_or_else(|| FailedCastError::new(self))`. -/
def castFloatToNonZero (fmt : FPFormat) (t : IntType) (maxB : MaxBound) (f : FP) :
    NZResult FP :=
  match castFloatToInt fmt t maxB f with
  | .error _ => .failed f
  | .ok v => if v = 0 then .failed f else .ok v

/-- `impl Closest<$nonzero> for FailedCastError<$float, $nonzero>` for the
unsigned NonZero targets (src/impls/nonzero.rs:140-148):
`NonZero::new(self.from.cast().closest()).unwrap_or(new_unchecked(1))`. -/
def closestFloatUnsignedNZ (fmt : FPFormat) (t : IntType) (maxB : MaxBound) (f : FP) : Int :=
  if closestFloatIntCast fmt t maxB f = 0 then 1 else closestFloatIntCast fmt t maxB f

/-- `impl Closest<$signed_nonzero> for FailedCastError<$float, $signed_nonzero>`
(src/impls/nonzero.rs:174-188): as above, but a zero closest is replaced by
1 or -1 following `self.from.is_sign_positive()`. -/
def closestFloatSignedNZ (fmt : FPFormat) (t : IntType) (maxB : MaxBound) (f : FP) : Int :=
  if closestFloatIntCast fmt t maxB f = 0
  then (if f.sign then -1 else 1)
  else closestFloatIntCast fmt t maxB f

/-- `cast!(float_to_self $float)` `cast_impl` (src/impls/primitives.rs:165-189):
`match self.is_nan() { false => Ok(self), true => Err(LossyCastError { from: self, to: self }) }`. -/
def castFloatSame (fmt : FPFormat) (f : FP) : Except (LossyCastError FP FP) FP :=
  match f.isNaNb fmt with
  | false => .ok f
  | true => .error ⟨f, f⟩

/-- Rust `as` from an integer to a float, written out for integers that are
exactly representable in the format — which every value reaching it in
`bitwise`'s Ok branch is, being the exact result of a float → integer cast.
Zero encodes as +0.0; rounding of non-representable integers is not used. -/
def intAsFP (fmt : FPFormat) (n : Int) : FP :=
  if n = 0 then ⟨false, 0, 0⟩
  else
    { sign := decide (n < 0)
      exp := fmt.bias + Nat.log2 n.natAbs
      frac :=
        if Nat.log2 n.natAbs ≤ fmt.mb
        then (n.natAbs - 2 ^ Nat.log2 n.natAbs) <<< (fmt.mb - Nat.log2 n.natAbs)
        else (n.natAbs - 2 ^ Nat.log2 n.natAbs) >>> (Nat.log2 n.natAbs - fmt.mb) }

/-- `impl Bitwise<$to> for Result<$to, LossyCastError<$from, $to>>`
(src/impls/bitwise.rs:39-53) for a float source and a same-width unsigned
integer target: the Ok branch recovers "the original" by casting the integer
back to the float (`value.cast::<$from>().assumed_lossless()`), the Err
branch takes `error.from`; the recovered float's bits are then reinterpreted
(`<$to>::from_ne_bytes(original.to_ne_bytes())`). -/
def bitwiseFloatToInt (fmt : FPFormat) (t : IntType) (maxB : MaxBound) (f : FP) : Nat :=
  match castFloatToInt fmt t maxB f with
  | .ok v => (intAsFP fmt v).toBits fmt
  | .error e => e.from'.toBits fmt

/-- The upper bound predicate matching `self <= $max` at the value level. -/
def MaxBound.holds (q : ℚ) : MaxBound → Prop
  | .fin m => q ≤ (m : ℚ)
  | .inf => True

/-- The precomputed bound admits zero. -/
def MaxBound.nonneg : MaxBound → Prop
  | .fin m => 0 ≤ m
  | .inf => True

/-- The precomputed bound never lets a value above the target's `MAX`
through: a finite bound is at most `MAX`, and the `INFINITY` entry is only
used where every finite value of the format is at most `MAX`. -/
def MaxBound.sound (fmt : FPFormat) (t : IntType) : MaxBound → Prop
  | .fin m => m ≤ t.max
  | .inf => ∀ f : FP, f.valid fmt → f.isFinite fmt → f.val fmt ≤ (t.max : ℚ)

-- ======================================================================
-- Theorems
-- ======================================================================

theorem IntType.min_nonpos (t : IntType) : t.min ≤ 0 := by
  unfold IntType.min
  split
  · have h : (0:ℤ) < 2 ^ (t.width - 1) := by positivity
    omega
  · exact le_refl 0

theorem IntType.max_nonneg (t : IntType) : 0 ≤ t.max := by
  unfold IntType.max
  split
  · have h : (0:ℤ) < 2 ^ (t.width - 1) := by positivity
    omega
  · have h : (0:ℤ) < 2 ^ t.width := by positivity
    omega

theorem IntType.wrap_unsigned (w : Nat) (hw : 0 < w) (x : Int) :
    IntType.wrap ⟨false, w, hw⟩ x = x % 2 ^ w := by
  unfold IntType.wrap
  rw [if_neg]
  simp

theorem IntType.wrap_signed (w : Nat) (hw : 0 < w) (x : Int) :
    IntType.wrap ⟨true, w, hw⟩ x =
      if 2 ^ (w - 1) ≤ x % 2 ^ w then x % 2 ^ w - 2 ^ w else x % 2 ^ w := by
  unfold IntType.wrap
  by_cases h : 2 ^ (w - 1) ≤ x % (2:ℤ) ^ w
  · rw [if_pos ⟨rfl, h⟩, if_pos h]
  · rw [if_neg (fun c => h c.2), if_neg h]

theorem IntType.min_unsigned (w : Nat) (hw : 0 < w) :
    IntType.min ⟨false, w, hw⟩ = 0 := by
  unfold IntType.min
  rw [if_neg]
  simp

theorem IntType.max_unsigned (w : Nat) (hw : 0 < w) :
    IntType.max ⟨false, w, hw⟩ = 2 ^ w - 1 := by
  unfold IntType.max
  rw [if_neg]
  simp

theorem IntType.min_signed (w : Nat) (hw : 0 < w) :
    IntType.min ⟨true, w, hw⟩ = -(2 ^ (w - 1)) := by
  unfold IntType.min
  rw [if_pos rfl]

theorem IntType.max_signed (w : Nat) (hw : 0 < w) :
    IntType.max ⟨true, w, hw⟩ = 2 ^ (w - 1) - 1 := by
  unfold IntType.max
  rw [if_pos rfl]

theorem IntType.wrap_bounds (t : IntType) (x : Int) :
    t.min ≤ t.wrap x ∧ t.wrap x ≤ t.max := by
  obtain ⟨s, w, hwpos⟩ := t
  have h2 : (0:ℤ) < 2 ^ w := by positivity
  have hB : (0:ℤ) < 2 ^ (w - 1) := by positivity
  have hm0 : 0 ≤ x % 2 ^ w := Int.emod_nonneg x (by omega)
  have hm1 : x % 2 ^ w < 2 ^ w := Int.emod_lt_of_pos x h2
  have hpow : (2:ℤ) ^ w = 2 * 2 ^ (w - 1) := by
    conv_lhs => rw [show w = (w - 1) + 1 by omega]
    rw [pow_succ]
    ring
  cases s
  · rw [IntType.wrap_unsigned, IntType.min_unsigned, IntType.max_unsigned]
    omega
  · rw [IntType.wrap_signed, IntType.min_signed, IntType.max_signed]
    split_ifs with h <;> omega

theorem IntType.wrap_emod (t : IntType) (x : Int) :
    t.wrap x % 2 ^ t.width = x % 2 ^ t.width := by
  obtain ⟨s, w, hwpos⟩ := t
  cases s
  · rw [IntType.wrap_unsigned]
    exact Int.emod_emod_of_dvd _ dvd_rfl
  · rw [IntType.wrap_signed]
    split_ifs with h
    · rw [Int.sub_emod, Int.emod_self, sub_zero, Int.emod_emod_of_dvd _ dvd_rfl,
        Int.emod_emod_of_dvd _ dvd_rfl]
    · exact Int.emod_emod_of_dvd _ dvd_rfl

/-- C6: for every integer → integer pair, `cast`/classify returns `Ok(x)`
exactly when `x` lies in `[target::MIN, target::MAX]`; otherwise it returns
`LossyCastError { from: x, to: x as $to }` where the `to` field is the
two's-complement truncation of `x`: congruent to `x` modulo `2^width` and
inside the target's range, exactly what an unchecked narrowing cast yields. -/
theorem integer_cast_classify (t : IntType) (x : Int) :
    (castInt t x = .ok x ↔ t.min ≤ x ∧ x ≤ t.max)
    ∧ (castInt t x = .error ⟨x, t.wrap x⟩ ↔ ¬(t.min ≤ x ∧ x ≤ t.max))
    ∧ t.wrap x % 2 ^ t.width = x % 2 ^ t.width
    ∧ t.min ≤ t.wrap x ∧ t.wrap x ≤ t.max := by
  refine ⟨?_, ?_, t.wrap_emod x, (t.wrap_bounds x).1, (t.wrap_bounds x).2⟩
  · unfold castInt
    split_ifs with h <;> simp [h]
  · unfold castInt
    split_ifs with h <;> simp [h]

/-- C6 witness: `classify(260 : u32 → u8)` is `Lossy { from: 260, to: 4 }`. -/
theorem integer_cast_classify_witness :
    castInt u8 260 = .error ⟨260, 4⟩ := by
  have h := ((integer_cast_classify u8 260).2.1).mpr (by decide)
  have hw : u8.wrap 260 = 4 := by decide
  rw [hw] at h
  exact h

/-- C7: for every integer → integer pair, `closest` stays inside
`[target::MIN, target::MAX]` and equals `x` when `x` is in range,
`target::MIN` when `x < target::MIN` and `target::MAX` when
`x > target::MAX`. -/
theorem integer_closest_saturates (t : IntType) (x : Int) :
    (t.min ≤ closestIntCast t x ∧ closestIntCast t x ≤ t.max)
    ∧ (t.min ≤ x ∧ x ≤ t.max → closestIntCast t x = x)
    ∧ (x < t.min → closestIntCast t x = t.min)
    ∧ (t.max < x → closestIntCast t x = t.max) := by
  have hmin := t.min_nonpos
  have hmax := t.max_nonneg
  unfold closestIntCast castInt
  split_ifs with h
  · have e : closestOr (LossyCastError.closestInt t)
        (Except.ok x : Except (LossyCastError Int Int) Int) = x := rfl
    rw [e]
    exact ⟨⟨h.1, h.2⟩, fun _ => rfl,
      fun hl => absurd hl (by omega), fun hg => absurd hg (by omega)⟩
  · have e : closestOr (LossyCastError.closestInt t)
        (Except.error (⟨x, t.wrap x⟩ : LossyCastError Int Int)) =
        if x < 0 then t.min else t.max := rfl
    rw [e]
    split_ifs with hx
    · exact ⟨⟨le_refl _, by omega⟩, fun hin => absurd hin h,
        fun _ => rfl, fun hg => absurd hg (by omega)⟩
    · exact ⟨⟨by omega, le_refl _⟩, fun hin => absurd hin h,
        fun hl => absurd hl (by omega), fun _ => rfl⟩

/-- C7 witness: `closest(1_000_000_000u64 → u8) = 255` and
`closest(-7isize → u16) = 0`. -/
theorem integer_closest_saturates_witness :
    closestIntCast u8 1000000000 = 255 ∧ closestIntCast u16 (-7) = 0 := by
  constructor
  · have h := (integer_closest_saturates u8 1000000000).2.2.2 (by decide)
    simpa using h
  · have h := (integer_closest_saturates u16 (-7)).2.2.1 (by decide)
    simpa using h

/-- C3 counterexample: `300u32 → NonZeroU8` is lossy with the non-zero
truncated value `44`, yet the code still produces the `FailedCastError`
carrier holding only `from = 300` — not a `Lossy { from, to }` outcome. -/
theorem prim_to_nonzero_lossy_nonzero_still_fails :
    castIntToNonZero u8 300 = .failed 300 ∧ u8.wrap 300 = 44 ∧ (44 : Int) ≠ 0 := by
  decide

/-- C3 (amended): for every primitive → NonZero cast, every lossy conversion —
whether or not the truncated value would be zero — produces the
`FailedCastError` carrier holding only the original value, and the cast
returns `Ok(x)` exactly when `x` is in the target's range and non-zero. -/
theorem prim_to_nonzero_cast_characterisation (t : IntType) (x : Int) :
    (castIntToNonZero t x = .ok x ↔ (t.min ≤ x ∧ x ≤ t.max) ∧ x ≠ 0)
    ∧ (castIntToNonZero t x = .failed x ↔ ¬((t.min ≤ x ∧ x ≤ t.max) ∧ x ≠ 0)) := by
  unfold castIntToNonZero castInt
  split_ifs with h
  · by_cases hx : x = 0 <;> simp [hx, h]
  · simp [h]

/-- C2: evaluated at concrete inputs, the NonZero → NonZero cast hands the
value 0 to `NonZero::new_unchecked`.  `NonZeroU16(256) → NonZeroU8` truncates
to 0 in the error's `to` field, and `closest` of the lossy
`NonZeroI8(-1) → NonZeroU8` cast saturates to `u8::MIN = 0` before rewrapping. -/
theorem nonzero_to_nonzero_fabricates_zero :
    castNonZeroToNonZero u8 256 = .error ⟨256, 0⟩ ∧ (256 : Int) ≠ 0
    ∧ castNonZeroToNonZero u8 (-1) = .error ⟨-1, 255⟩
    ∧ closestNonZeroToNonZero u8 ⟨-1, 255⟩ = 0 := by
  decide

/-- Helper for C10: the integer-source half.  The primitive closest saturates
a negative source to the unsigned `MIN = 0`, which `NonZero::new` rejects,
and the `unwrap_or` branch substitutes 1. -/
theorem negative_int_closest_helper (t : IntType) (x : Int)
    (hu : t.signed = false) (hx : x < 0) : closestPrimNZ t x = 1 := by
  have hmin : t.min = 0 := by unfold IntType.min; rw [hu]; simp
  have hc := (integer_closest_saturates t x).2.2.1 (by omega)
  unfold closestPrimNZ
  rw [hc, hmin]
  simp

theorem FPFormat.bias_eq (fmt : FPFormat) : fmt.bias = 2 ^ (fmt.eb - 1) - 1 := by
  have hsplit : (2:ℕ) ^ fmt.eb = 2 * 2 ^ (fmt.eb - 1) := by
    conv_lhs => rw [show fmt.eb = (fmt.eb - 1) + 1 by have := fmt.ebpos; omega]
    rw [pow_succ]
    ring
  have hp : 0 < (2:ℕ) ^ (fmt.eb - 1) := by positivity
  unfold FPFormat.bias
  omega

theorem FPFormat.bias_pos (fmt : FPFormat) : 0 < fmt.bias := by
  rw [fmt.bias_eq]
  have h2 : (2:ℕ) ^ 1 ≤ 2 ^ (fmt.eb - 1) :=
    Nat.pow_le_pow_right (by norm_num) (by have := fmt.ebpos; omega)
  simp at h2
  omega

theorem FPFormat.emax_eq (fmt : FPFormat) : fmt.emax = 2 * fmt.bias + 1 := by
  have hsplit : (2:ℕ) ^ fmt.eb = 2 * 2 ^ (fmt.eb - 1) := by
    conv_lhs => rw [show fmt.eb = (fmt.eb - 1) + 1 by have := fmt.ebpos; omega]
    rw [pow_succ]
    ring
  have hp : 0 < (2:ℕ) ^ (fmt.eb - 1) := by positivity
  rw [fmt.bias_eq]
  unfold FPFormat.emax
  omega

theorem FPFormat.scale_pos (fmt : FPFormat) : 0 < fmt.scale := by
  unfold FPFormat.scale
  positivity

theorem FP.toBits_eq (fmt : FPFormat) (f : FP) :
    f.toBits fmt = ((if f.sign then 2 ^ fmt.eb else 0) + f.exp) * 2 ^ fmt.mb + f.frac := by
  unfold FP.toBits
  cases f.sign
  · simp
  · simp [pow_add]
    ring

/-- `(bits >> MANTISSA_BITS) & EXPONENT_MASK` recovers the exponent field. -/
theorem FP.exp_extract (fmt : FPFormat) (f : FP) (hv : f.valid fmt) :
    floatExponent fmt (f.toBits fmt) = f.exp := by
  obtain ⟨he, hf⟩ := hv
  unfold floatExponent
  have hmb : 0 < (2:ℕ) ^ fmt.mb := by positivity
  rw [FP.toBits_eq, Nat.shiftRight_eq_div_pow, Nat.and_pow_two_sub_one_eq_mod,
    Nat.mul_comm, Nat.mul_add_div hmb, Nat.div_eq_of_lt hf, Nat.add_zero]
  cases hs : f.sign
  · simp [Nat.mod_eq_of_lt he]
  · simp only [if_true]
    rw [Nat.add_mod_left, Nat.mod_eq_of_lt he]

/-- `bits % 2^mb` recovers the fraction field. -/
theorem FP.toBits_mod (fmt : FPFormat) (f : FP) (hv : f.valid fmt) :
    f.toBits fmt % 2 ^ fmt.mb = f.frac := by
  rw [FP.toBits_eq, Nat.mul_comm, Nat.mul_add_mod, Nat.mod_eq_of_lt hv.2]

/-- `bits & MANTISSA_MASK` recovers the fraction field. -/
theorem FP.frac_extract (fmt : FPFormat) (f : FP) (hv : f.valid fmt) :
    f.toBits fmt &&& (2 ^ fmt.mb - 1) = f.frac := by
  rw [Nat.and_pow_two_sub_one_eq_mod, FP.toBits_mod fmt f hv]

/-- `bits & (2^k - 1)` for `k ≤ mb` keeps the low `k` fraction bits. -/
theorem FP.lowbits_extract (fmt : FPFormat) (f : FP) (hv : f.valid fmt)
    (k : Nat) (hk : k ≤ fmt.mb) :
    f.toBits fmt &&& (2 ^ k - 1) = f.frac % 2 ^ k := by
  rw [Nat.and_pow_two_sub_one_eq_mod, ← Nat.mod_mod_of_dvd _ (pow_dvd_pow 2 hk),
    FP.toBits_mod fmt f hv]

theorem mask_shr (mb e : Nat) (he : e ≤ mb) : (2 ^ mb - 1) >>> e = 2 ^ (mb - e) - 1 := by
  have hp : 0 < (2:ℕ) ^ e := by positivity
  have hq : 0 < (2:ℕ) ^ (mb - e) := by positivity
  have h1 : (2:ℕ) ^ mb = 2 ^ e * 2 ^ (mb - e) := by
    rw [← pow_add]
    congr 1
    omega
  have h3 : (2:ℕ) ^ e * (2 ^ (mb - e) - 1) + 2 ^ e = 2 ^ e * 2 ^ (mb - e) := by
    calc (2:ℕ) ^ e * (2 ^ (mb - e) - 1) + 2 ^ e
        = 2 ^ e * (2 ^ (mb - e) - 1 + 1) := by ring
      _ = 2 ^ e * 2 ^ (mb - e) := by rw [Nat.sub_add_cancel hq]
  have h2 : (2:ℕ) ^ mb - 1 = 2 ^ e * (2 ^ (mb - e) - 1) + (2 ^ e - 1) := by omega
  rw [Nat.shiftRight_eq_div_pow, h2, Nat.mul_add_div hp,
    Nat.div_eq_of_lt (by omega), Nat.add_zero]

theorem mask_shr_zero (mb e : Nat) (he : mb ≤ e) : (2 ^ mb - 1) >>> e = 0 := by
  have h : 0 < (2:ℕ) ^ mb := by positivity
  rw [Nat.shiftRight_eq_div_pow]
  exact Nat.div_eq_of_lt
    (lt_of_lt_of_le (by omega) (Nat.pow_le_pow_right (by norm_num) he))

/-- `a / B` is an integer exactly when `B` divides `a`. -/
theorem isInt_div_iff (a : Int) (B : Nat) (hB : 0 < B) :
    (∃ n : Int, (a : ℚ) / (B : ℚ) = (n : ℚ)) ↔ (B : Int) ∣ a := by
  have hB0 : ((B : ℚ)) ≠ 0 := by positivity
  constructor
  · rintro ⟨n, h⟩
    rw [div_eq_iff hB0] at h
    refine ⟨n, ?_⟩
    rw [mul_comm]
    exact_mod_cast h
  · rintro ⟨c, rfl⟩
    refine ⟨c, ?_⟩
    push_cast
    rw [mul_comm, mul_div_assoc, div_self hB0, mul_one]

theorem not_isInt_div (a : Int) (B : Nat) (h0 : a ≠ 0) (hB : a.natAbs < B) :
    ¬∃ n : Int, (a : ℚ) / (B : ℚ) = (n : ℚ) := by
  intro h
  have hBpos : 0 < B := lt_of_le_of_lt (Nat.zero_le _) hB
  have hd := (isInt_div_iff a B hBpos).mp h
  have hd2 : B ∣ a.natAbs := Int.natCast_dvd.mp hd
  have := Nat.le_of_dvd (Int.natAbs_pos.mpr h0) hd2
  omega

theorem qtrunc_intCast (n : Int) : qtrunc (n : ℚ) = n := by
  unfold qtrunc
  split_ifs with h
  · rw [← Int.cast_neg, Int.floor_intCast]
    ring
  · rw [Int.floor_intCast]

theorem roundQ_intCast (n : Int) : roundQ (n : ℚ) = n := by
  have hhalf : ⌊(1 : ℚ)/2⌋ = 0 := by norm_num
  unfold roundQ
  split_ifs with h
  · rw [← Int.cast_neg, add_comm, Int.floor_add_int, hhalf]
    ring
  · rw [add_comm, Int.floor_add_int, hhalf, zero_add]

theorem roundQ_nonpos (q : ℚ) (h : q < 0) : roundQ q ≤ 0 := by
  unfold roundQ
  rw [if_pos h]
  have : (0:ℤ) ≤ ⌊-q + 1/2⌋ := Int.floor_nonneg.mpr (by linarith)
  omega

/-- The floor of a quotient of naturals is natural division. -/
theorem floor_natCast_div (p b : Nat) : ⌊((p : ℚ)) / ((b : ℚ))⌋ = ((p / b : Nat) : Int) := by
  rw [Rat.floor_natCast_div_natCast]
  exact_mod_cast rfl

theorem itruncScaled_eq (a : Int) (b : Nat) (hb : 0 < b) :
    itruncScaled a b = qtrunc ((a : ℚ) / (b : ℚ)) := by
  have hbq : (0:ℚ) < (b : ℚ) := by positivity
  unfold itruncScaled qtrunc
  by_cases ha : a < 0
  · have haq : ((a : ℚ)) < 0 := by exact_mod_cast ha
    rw [if_pos ha, if_pos (div_neg_of_neg_of_pos haq hbq)]
    congr 1
    have h1 : (((-a).toNat : Nat) : ℚ) = ((-a : Int) : ℚ) := by
      have h2 : (((-a).toNat : Nat) : Int) = -a := Int.toNat_of_nonneg (by omega)
      exact_mod_cast h2
    rw [← floor_natCast_div ((-a).toNat) b, h1]
    congr 1
    push_cast
    ring
  · have haq : (0:ℚ) ≤ (a : ℚ) := by exact_mod_cast not_lt.mp ha
    rw [if_neg ha, if_neg (not_lt.mpr (div_nonneg haq hbq.le))]
    have h1 : ((a.toNat : Nat) : ℚ) = (a : ℚ) := by
      have h2 : ((a.toNat : Nat) : Int) = a := Int.toNat_of_nonneg (not_lt.mp ha)
      exact_mod_cast h2
    rw [← floor_natCast_div a.toNat b, h1]

/-- Rounding half away from zero over the common denominator is `roundQ`. -/
theorem iroundScaled_eq (a : Int) (b : Nat) (hb : 0 < b) :
    iroundScaled a b = roundQ ((a : ℚ) / (b : ℚ)) := by
  have hbq : (0:ℚ) < (b : ℚ) := by positivity
  have hbne : ((b : ℚ)) ≠ 0 := ne_of_gt hbq
  unfold iroundScaled roundQ
  by_cases ha : a < 0
  · have haq : ((a : ℚ)) < 0 := by exact_mod_cast ha
    rw [if_pos ha, if_pos (div_neg_of_neg_of_pos haq hbq)]
    congr 1
    have h1 : (((-a).toNat : Nat) : ℚ) = ((-a : Int) : ℚ) := by
      have h2 : (((-a).toNat : Nat) : Int) = -a := Int.toNat_of_nonneg (by omega)
      exact_mod_cast h2
    rw [← floor_natCast_div ((-a).toNat * 2 + b) (2 * b)]
    congr 1
    push_cast [h1]
    field_simp
    ring_nf
    try exact Or.inl trivial
  · have haq : (0:ℚ) ≤ (a : ℚ) := by exact_mod_cast not_lt.mp ha
    rw [if_neg ha, if_neg (not_lt.mpr (div_nonneg haq hbq.le))]
    have h1 : ((a.toNat : Nat) : ℚ) = (a : ℚ) := by
      have h2 : ((a.toNat : Nat) : Int) = a := Int.toNat_of_nonneg (not_lt.mp ha)
      exact_mod_cast h2
    rw [← floor_natCast_div (a.toNat * 2 + b) (2 * b)]
    congr 1
    push_cast [h1]
    field_simp
    ring_nf
    try exact Or.inl trivial

/-- Integrality of the value is divisibility of the numerator by the common
denominator, regardless of the sign bit. -/
theorem FP.val_isInt_iff (fmt : FPFormat) (f : FP) :
    (∃ n : Int, f.val fmt = (n : ℚ)) ↔
      fmt.scale ∣ (if f.exp = 0 then 2 * f.frac else (2 ^ fmt.mb + f.frac) * 2 ^ f.exp) := by
  unfold FP.val
  rw [isInt_div_iff _ _ fmt.scale_pos]
  unfold FP.sval
  cases hs : f.sign <;> by_cases h0 : f.exp = 0 <;>
    simp [h0, neg_one_mul, dvd_neg] <;> norm_cast

/-- Core correctness of the bit-level `is_int` test
(src/impls/primitives.rs:90-126): on a valid bit pattern it holds exactly
when the float is finite and its value is a mathematical integer. -/
theorem floatIsInt_iff (fmt : FPFormat) (f : FP) (hv : f.valid fmt) :
    floatIsInt fmt (f.toBits fmt) = true ↔
      (f.isFinite fmt ∧ ∃ n : Int, f.val fmt = (n : ℚ)) := by
  have hbias := fmt.bias_pos
  have hemax := fmt.emax_eq
  have hmb := fmt.mbpos
  have hbdef : (2 ^ fmt.eb - 1) / 2 = fmt.bias := rfl
  have hedef : (2 : Nat) ^ fmt.eb - 1 = fmt.emax := rfl
  have hA := f.val_isInt_iff fmt
  unfold floatIsInt
  rw [FP.exp_extract fmt f hv, hbdef, hedef]
  by_cases h0 : f.exp = 0
  · rw [if_pos h0, FP.frac_extract fmt f hv]
    have hfin : f.isFinite fmt := by
      unfold FP.isFinite
      omega
    rw [if_pos h0] at hA
    simp only [decide_eq_true_eq]
    constructor
    · intro h
      exact ⟨hfin, hA.mpr (by rw [h]; simp)⟩
    · rintro ⟨-, hint⟩
      have hdvd := hA.mp hint
      by_cases hf : f.frac = 0
      · exact hf
      · have hps : (2:ℕ) ^ (fmt.mb + 1) = 2 ^ fmt.mb * 2 := pow_succ 2 fmt.mb
        have h1 : 2 * f.frac < fmt.scale := by
          unfold FPFormat.scale
          have e2 : (2:ℕ) ^ (fmt.mb + 1) ≤ 2 ^ (fmt.bias + fmt.mb) :=
            Nat.pow_le_pow_right (by norm_num) (by omega)
          have := hv.2
          omega
        have h2 := Nat.le_of_dvd (by omega) hdvd
        omega
  · rw [if_neg h0]
    by_cases hm : f.exp = fmt.emax
    · rw [if_pos hm]
      simp only [Bool.false_eq_true, false_iff]
      rintro ⟨hfin, -⟩
      exact hfin hm
    · rw [if_neg hm]
      have hfin : f.isFinite fmt := hm
      rw [if_neg h0] at hA
      by_cases hlt : f.exp < fmt.bias
      · rw [if_pos hlt]
        simp only [Bool.false_eq_true, false_iff]
        rintro ⟨-, hint⟩
        have hdvd := hA.mp hint
        have hps : (2:ℕ) ^ (fmt.mb + 1) = 2 ^ fmt.mb * 2 := pow_succ 2 fmt.mb
        have e1 : 2 ^ fmt.mb + f.frac < 2 ^ (fmt.mb + 1) := by
          have := hv.2
          omega
        have e2 : (2:ℕ) ^ f.exp ≤ 2 ^ (fmt.bias - 1) :=
          Nat.pow_le_pow_right (by norm_num) (by omega)
        have h1 : (2 ^ fmt.mb + f.frac) * 2 ^ f.exp < fmt.scale := by
          unfold FPFormat.scale
          calc (2 ^ fmt.mb + f.frac) * 2 ^ f.exp
              < 2 ^ (fmt.mb + 1) * 2 ^ f.exp :=
                (Nat.mul_lt_mul_right (by positivity)).mpr e1
            _ ≤ 2 ^ (fmt.mb + 1) * 2 ^ (fmt.bias - 1) :=
                Nat.mul_le_mul_left _ e2
            _ = 2 ^ (fmt.mb + 1 + (fmt.bias - 1)) := by rw [← pow_add]
            _ = 2 ^ (fmt.bias + fmt.mb) := by congr 1; omega
        have h2 := Nat.le_of_dvd (by positivity) hdvd
        omega
      · rw [if_neg hlt]
        have hexp : f.exp = fmt.bias + (f.exp - fmt.bias) := by omega
        by_cases hemb : fmt.mb ≤ f.exp - fmt.bias
        · have hmask : (if f.exp - fmt.bias < fmt.totalBits
              then (2 ^ fmt.mb - 1) >>> (f.exp - fmt.bias) else 0) = 0 := by
            split_ifs with h
            · exact mask_shr_zero _ _ hemb
            · rfl
          rw [hmask]
          simp only [Nat.and_zero, decide_eq_true_eq]
          have hdvd : fmt.scale ∣ (2 ^ fmt.mb + f.frac) * 2 ^ f.exp := by
            unfold FPFormat.scale
            have hsplit : (2:ℕ) ^ f.exp =
                2 ^ (fmt.bias + fmt.mb) * 2 ^ (f.exp - fmt.bias - fmt.mb) := by
              rw [← pow_add]
              congr 1
              omega
            exact ⟨(2 ^ fmt.mb + f.frac) * 2 ^ (f.exp - fmt.bias - fmt.mb),
              by rw [hsplit]; ring⟩
          exact ⟨fun _ => ⟨hfin, hA.mpr hdvd⟩, fun _ => trivial⟩
        · push_neg at hemb
          have hlte : f.exp - fmt.bias ≤ fmt.mb := le_of_lt hemb
          have htb : f.exp - fmt.bias < fmt.totalBits := by
            unfold FPFormat.totalBits
            omega
          rw [if_pos htb, mask_shr _ _ hlte,
            FP.lowbits_extract fmt f hv _ (by omega)]
          simp only [decide_eq_true_eq]
          have hfac : fmt.scale =
              2 ^ (fmt.mb - (f.exp - fmt.bias)) * 2 ^ (fmt.bias + (f.exp - fmt.bias)) := by
            unfold FPFormat.scale
            rw [← pow_add]
            congr 1
            omega
          have hpowd : (2:ℕ) ^ (fmt.mb - (f.exp - fmt.bias)) ∣ 2 ^ fmt.mb :=
            pow_dvd_pow 2 (by omega)
          constructor
          · intro h
            refine ⟨hfin, hA.mpr ?_⟩
            have hd1 : 2 ^ (fmt.mb - (f.exp - fmt.bias)) ∣ f.frac :=
              Nat.dvd_of_mod_eq_zero h
            obtain ⟨c, hc⟩ := (Nat.dvd_add_right hpowd).mpr hd1
            refine ⟨c, ?_⟩
            calc (2 ^ fmt.mb + f.frac) * 2 ^ f.exp
                = (2 ^ (fmt.mb - (f.exp - fmt.bias)) * c) *
                    2 ^ (fmt.bias + (f.exp - fmt.bias)) := by rw [← hc, ← hexp]
              _ = (2 ^ (fmt.mb - (f.exp - fmt.bias)) *
                    2 ^ (fmt.bias + (f.exp - fmt.bias))) * c := by ring
              _ = fmt.scale * c := by rw [← hfac]
          · rintro ⟨-, hint⟩
            have hdvd := hA.mp hint
            rw [hfac] at hdvd
            rw [show (2:ℕ) ^ f.exp = 2 ^ (fmt.bias + (f.exp - fmt.bias)) from by
              rw [← hexp]] at hdvd
            have hcan : 2 ^ (fmt.mb - (f.exp - fmt.bias)) ∣ 2 ^ fmt.mb + f.frac :=
              (Nat.mul_dvd_mul_iff_right
                (show 0 < (2:ℕ) ^ (fmt.bias + (f.exp - fmt.bias)) by positivity)).mp hdvd
            have hd1 : 2 ^ (fmt.mb - (f.exp - fmt.bias)) ∣ f.frac :=
              (Nat.dvd_add_right hpowd).mp hcan
            exact Nat.mod_eq_zero_of_dvd hd1

theorem FP.isNaNb_eq_false (fmt : FPFormat) (f : FP) (h : f.isFinite fmt) :
    f.isNaNb fmt = false :=
  decide_eq_false (fun c => h c.1)

theorem FP.isPosInfb_eq_false (fmt : FPFormat) (f : FP) (h : f.isFinite fmt) :
    f.isPosInfb fmt = false :=
  decide_eq_false (fun c => h c.1)

theorem FP.isNegInfb_eq_false (fmt : FPFormat) (f : FP) (h : f.isFinite fmt) :
    f.isNegInfb fmt = false :=
  decide_eq_false (fun c => h c.1)

/-- On finite floats, `self >= MIN as $from` is the value comparison. -/
theorem fgeMin_iff (fmt : FPFormat) (f : FP) (m : Int) (hfin : f.isFinite fmt) :
    fgeMin fmt f m = true ↔ (m : ℚ) ≤ f.val fmt := by
  unfold fgeMin
  rw [FP.isNaNb_eq_false fmt f hfin, FP.isPosInfb_eq_false fmt f hfin,
    FP.isNegInfb_eq_false fmt f hfin]
  simp only [Bool.false_eq_true, if_false, decide_eq_true_eq]
  unfold FP.val
  rw [le_div_iff (by exact_mod_cast fmt.scale_pos : (0:ℚ) < (fmt.scale : ℚ))]
  constructor <;> intro h <;> exact_mod_cast h

/-- On finite floats, `self <= $max` is the value comparison. -/
theorem fleMax_iff (fmt : FPFormat) (f : FP) (maxB : MaxBound) (hfin : f.isFinite fmt) :
    fleMax fmt f maxB = true ↔ MaxBound.holds (f.val fmt) maxB := by
  cases maxB
  case fin m =>
    unfold fleMax MaxBound.holds
    rw [FP.isNaNb_eq_false fmt f hfin, FP.isPosInfb_eq_false fmt f hfin,
      FP.isNegInfb_eq_false fmt f hfin]
    simp only [Bool.false_eq_true, if_false, decide_eq_true_eq]
    unfold FP.val
    rw [div_le_iff (by exact_mod_cast fmt.scale_pos : (0:ℚ) < (fmt.scale : ℚ))]
    constructor <;> intro h <;> exact_mod_cast h
  case inf =>
    unfold fleMax MaxBound.holds
    rw [FP.isNaNb_eq_false fmt f hfin]
    simp

theorem IntType.clamp_mem (t : IntType) (n : Int) :
    t.min ≤ t.clamp n ∧ t.clamp n ≤ t.max := by
  have h1 := t.min_nonpos
  have h2 := t.max_nonneg
  unfold IntType.clamp
  exact ⟨le_min (by omega) (le_max_left _ _), min_le_left _ _⟩

theorem IntType.clamp_of_mem (t : IntType) (n : Int) (h1 : t.min ≤ n) (h2 : n ≤ t.max) :
    t.clamp n = n := by
  unfold IntType.clamp
  rw [max_eq_right h1, min_eq_right h2]

/-- On a finite float of integral value `n`, the saturating `as` cast clamps
`n`. -/
theorem FP.asInt_of_int (fmt : FPFormat) (t : IntType) (f : FP) (n : Int)
    (hfin : f.isFinite fmt) (hval : f.val fmt = (n : ℚ)) :
    f.asInt fmt t = t.clamp n := by
  unfold FP.asInt
  rw [FP.isNaNb_eq_false fmt f hfin, FP.isPosInfb_eq_false fmt f hfin,
    FP.isNegInfb_eq_false fmt f hfin]
  simp only [Bool.false_eq_true, if_false]
  rw [itruncScaled_eq _ _ fmt.scale_pos]
  rw [show ((f.sval fmt : ℚ)) / ((fmt.scale : Nat) : ℚ) = f.val fmt from rfl, hval,
    qtrunc_intCast]

/-- C4: for every float → integer pair, `cast`/classify returns Exact — an
`Ok` holding exactly the source's mathematical value — if and only if the
source is finite, has zero fractional part (its value is an integer, decided
by the mantissa/exponent bit inspection), and lies within
`[target::MIN, M]`, where `M` is the pair's precomputed bound: the exact
value of the largest representable float not above `target::MAX` (for the
f32 → u128 entry, `INFINITY`, which is sound because every finite f32 is
below `u128::MAX`). -/
theorem float_to_int_classify_iff (fmt : FPFormat) (t : IntType) (maxB : MaxBound)
    (f : FP) (hv : f.valid fmt) (hs : MaxBound.sound fmt t maxB) :
    (∃ n : Int, castFloatToInt fmt t maxB f = .ok n ∧ f.val fmt = (n : ℚ)) ↔
      (f.isFinite fmt ∧ (∃ n : Int, f.val fmt = (n : ℚ))
        ∧ (t.min : ℚ) ≤ f.val fmt ∧ MaxBound.holds (f.val fmt) maxB) := by
  unfold castFloatToInt
  by_cases hC : (floatIsInt fmt (f.toBits fmt) && fgeMin fmt f t.min
      && fleMax fmt f maxB) = true
  · rw [if_pos hC]
    have hsplit : floatIsInt fmt (f.toBits fmt) = true ∧ fgeMin fmt f t.min = true
        ∧ fleMax fmt f maxB = true := by
      rw [Bool.and_eq_true, Bool.and_eq_true] at hC
      exact ⟨hC.1.1, hC.1.2, hC.2⟩
    obtain ⟨hfin, n, hval⟩ := (floatIsInt_iff fmt f hv).mp hsplit.1
    have hge : (t.min : ℚ) ≤ f.val fmt := (fgeMin_iff fmt f t.min hfin).mp hsplit.2.1
    have hle : MaxBound.holds (f.val fmt) maxB := (fleMax_iff fmt f maxB hfin).mp hsplit.2.2
    have hnmax : n ≤ t.max := by
      cases maxB
      case fin m =>
        have h1 : (n : ℚ) ≤ (m : ℚ) := hval ▸ hle
        have h2 : n ≤ m := by exact_mod_cast h1
        exact le_trans h2 hs
      case inf =>
        have h1 : (n : ℚ) ≤ (t.max : ℚ) := hval ▸ hs f hv hfin
        exact_mod_cast h1
    have hnmin : t.min ≤ n := by
      have h1 : (t.min : ℚ) ≤ (n : ℚ) := hval ▸ hge
      exact_mod_cast h1
    constructor
    · intro _
      exact ⟨hfin, ⟨n, hval⟩, hge, hle⟩
    · intro _
      refine ⟨n, ?_, hval⟩
      rw [FP.asInt_of_int fmt t f n hfin hval, t.clamp_of_mem n hnmin hnmax]
  · rw [if_neg hC]
    constructor
    · rintro ⟨n, hok, -⟩
      exact absurd hok (by simp)
    · rintro ⟨hfin, hint, hge, hle⟩
      refine absurd ?_ hC
      rw [Bool.and_eq_true, Bool.and_eq_true]
      exact ⟨⟨(floatIsInt_iff fmt f hv).mpr ⟨hfin, hint⟩,
        (fgeMin_iff fmt f t.min hfin).mpr hge⟩, (fleMax_iff fmt f maxB hfin).mpr hle⟩

/-- C4 witness: the classification criterion instantiated at the f32 → i64
pair, whose precomputed bound is `9_223_371_487_098_961_920_f32` (the
largest f32 not above `i64::MAX`, which itself is not representable), on the
concrete source 5.5f32 (bit fields sign 0, exponent 129, fraction
0x300000). -/
theorem float_to_int_classify_iff_witness :
    (∃ n : Int, castFloatToInt f32fmt i64 (.fin 9223371487098961920)
        ⟨false, 129, 3145728⟩ = .ok n
      ∧ FP.val f32fmt ⟨false, 129, 3145728⟩ = (n : ℚ)) ↔
      (FP.isFinite f32fmt ⟨false, 129, 3145728⟩
        ∧ (∃ n : Int, FP.val f32fmt ⟨false, 129, 3145728⟩ = (n : ℚ))
        ∧ ((IntType.min i64 : Int) : ℚ) ≤ FP.val f32fmt ⟨false, 129, 3145728⟩
        ∧ MaxBound.holds (FP.val f32fmt ⟨false, 129, 3145728⟩)
            (.fin 9223371487098961920)) :=
  float_to_int_classify_iff f32fmt i64 (.fin 9223371487098961920)
    ⟨false, 129, 3145728⟩ (by decide)
    (show (9223371487098961920 : Int) ≤ i64.max by decide)

/-- C5: for every float → integer pair, `closest` equals the source rounded
to the nearest integer with ties away from zero, saturated to
`[target::MIN, target::MAX]`; `+∞` saturates to `MAX`, `-∞` to `MIN`, NaN
maps to 0; and the result always lies in the target's range. -/
theorem float_to_int_closest_rounds (fmt : FPFormat) (t : IntType) (maxB : MaxBound)
    (f : FP) (hv : f.valid fmt) :
    closestFloatIntCast fmt t maxB f =
      (if f.isNaNb fmt = true then 0
       else if f.isPosInfb fmt = true then t.max
       else if f.isNegInfb fmt = true then t.min
       else t.clamp (roundQ (f.val fmt)))
    ∧ t.min ≤ closestFloatIntCast fmt t maxB f
    ∧ closestFloatIntCast fmt t maxB f ≤ t.max := by
  have hmin := t.min_nonpos
  have hmax := t.max_nonneg
  have hmain : closestFloatIntCast fmt t maxB f =
      (if f.isNaNb fmt = true then 0
       else if f.isPosInfb fmt = true then t.max
       else if f.isNegInfb fmt = true then t.min
       else t.clamp (roundQ (f.val fmt))) := by
    unfold closestFloatIntCast castFloatToInt
    by_cases hC : (floatIsInt fmt (f.toBits fmt) && fgeMin fmt f t.min
        && fleMax fmt f maxB) = true
    · rw [if_pos hC]
      have h1 : floatIsInt fmt (f.toBits fmt) = true := by
        rw [Bool.and_eq_true, Bool.and_eq_true] at hC
        exact hC.1.1
      obtain ⟨hfin, n, hval⟩ := (floatIsInt_iff fmt f hv).mp h1
      rw [show closestOr (closestFloatIntErr fmt t)
        (Except.ok (f.asInt fmt t) : Except (LossyCastError FP Int) Int)
        = f.asInt fmt t from rfl]
      rw [FP.asInt_of_int fmt t f n hfin hval]
      rw [FP.isNaNb_eq_false fmt f hfin, FP.isPosInfb_eq_false fmt f hfin,
        FP.isNegInfb_eq_false fmt f hfin]
      simp only [Bool.false_eq_true, if_false]
      rw [hval, roundQ_intCast]
    · rw [if_neg hC]
      rw [show closestOr (closestFloatIntErr fmt t)
        (Except.error (⟨f, f.asInt fmt t⟩ : LossyCastError FP Int))
        = closestFloatIntErr fmt t ⟨f, f.asInt fmt t⟩ from rfl]
      unfold closestFloatIntErr
      rw [iroundScaled_eq _ _ fmt.scale_pos]
      rfl
  refine ⟨hmain, ?_, ?_⟩
  · rw [hmain]
    split_ifs <;> first | omega | exact (t.clamp_mem _).1
  · rw [hmain]
    split_ifs <;> first | omega | exact (t.clamp_mem _).2

/-- C5 witness: `closest(5.5f32 → u8) = 6`: the criterion applied at the
concrete bit pattern of 5.5f32, whose rounded-away value 6 is in range. -/
theorem float_to_int_closest_rounds_witness :
    closestFloatIntCast f32fmt u8 (.fin 255) ⟨false, 129, 3145728⟩ = 6 := by
  have h := float_to_int_closest_rounds f32fmt u8 (.fin 255) ⟨false, 129, 3145728⟩
    (by decide)
  have hbounds := h.2
  decide

/-- Helper for C8: both zero bit patterns classify as `Ok(0)` at the
underlying-primitive stage. -/
theorem castFloatToInt_zero (fmt : FPFormat) (t : IntType) (maxB : MaxBound)
    (hq : MaxBound.nonneg maxB) (s : Bool) :
    castFloatToInt fmt t maxB ⟨s, 0, 0⟩ = .ok 0 := by
  have hv0 : FP.valid fmt ⟨s, 0, 0⟩ := ⟨by positivity, by positivity⟩
  have hfin : FP.isFinite fmt ⟨s, 0, 0⟩ := by
    unfold FP.isFinite
    have h1 := fmt.emax_eq
    have h2 := fmt.bias_pos
    simp only []
    omega
  have hval : FP.val fmt ⟨s, 0, 0⟩ = 0 := by
    unfold FP.val FP.sval
    cases s <;> simp
  have h1 : floatIsInt fmt (FP.toBits fmt ⟨s, 0, 0⟩) = true :=
    (floatIsInt_iff fmt _ hv0).mpr ⟨hfin, ⟨0, by rw [hval]; simp⟩⟩
  have h2 : fgeMin fmt ⟨s, 0, 0⟩ t.min = true :=
    (fgeMin_iff fmt _ _ hfin).mpr (by rw [hval]; exact_mod_cast t.min_nonpos)
  have h3 : fleMax fmt ⟨s, 0, 0⟩ maxB = true := by
    refine (fleMax_iff fmt _ _ hfin).mpr ?_
    cases maxB
    case fin m =>
      rw [hval]
      show (0 : ℚ) ≤ (m : ℚ)
      exact_mod_cast hq
    case inf => trivial
  unfold castFloatToInt
  rw [if_pos (by rw [h1, h2, h3]; rfl)]
  rw [FP.asInt_of_int fmt t _ 0 hfin (by rw [hval]; simp),
    t.clamp_of_mem 0 t.min_nonpos t.max_nonneg]

/-- C8: for every source type and NonZero target, classifying 0 always
produces the `Unrepresentable` failure carrying only the source; `closest(0)`
from an integer source substitutes 1; for float sources the sign of zero
selects the substituted value: `closest(+0.0)` to a signed NonZero target is
1 and `closest(-0.0)` is -1 (unsigned NonZero targets substitute 1 for both
zeroes). -/
theorem zero_to_nonzero_spec (t : IntType) (fmt : FPFormat) (maxB : MaxBound)
    (hq : MaxBound.nonneg maxB) :
    castIntToNonZero t 0 = .failed 0
    ∧ closestPrimNZ t 0 = 1
    ∧ castFloatToNonZero fmt t maxB ⟨false, 0, 0⟩ = .failed ⟨false, 0, 0⟩
    ∧ castFloatToNonZero fmt t maxB ⟨true, 0, 0⟩ = .failed ⟨true, 0, 0⟩
    ∧ closestFloatSignedNZ fmt t maxB ⟨false, 0, 0⟩ = 1
    ∧ closestFloatSignedNZ fmt t maxB ⟨true, 0, 0⟩ = -1
    ∧ closestFloatUnsignedNZ fmt t maxB ⟨false, 0, 0⟩ = 1
    ∧ closestFloatUnsignedNZ fmt t maxB ⟨true, 0, 0⟩ = 1 := by
  have hz : castInt t 0 = .ok 0 := by
    unfold castInt
    rw [if_pos ⟨t.min_nonpos, t.max_nonneg⟩]
  have hzf := castFloatToInt_zero fmt t maxB hq
  have hci : closestIntCast t 0 = 0 := by
    unfold closestIntCast
    rw [hz]
    rfl
  have hcf : ∀ s, closestFloatIntCast fmt t maxB ⟨s, 0, 0⟩ = 0 := by
    intro s
    unfold closestFloatIntCast
    rw [hzf s]
    rfl
  refine ⟨?_, ?_, ?_, ?_, ?_, ?_, ?_, ?_⟩
  · unfold castIntToNonZero
    rw [hz]
    rfl
  · unfold closestPrimNZ
    rw [hci]
    rfl
  · unfold castFloatToNonZero
    rw [hzf false]
    rfl
  · unfold castFloatToNonZero
    rw [hzf true]
    rfl
  · unfold closestFloatSignedNZ
    rw [hcf false]
    rfl
  · unfold closestFloatSignedNZ
    rw [hcf true]
    rfl
  · unfold closestFloatUnsignedNZ
    rw [hcf false]
    rfl
  · unfold closestFloatUnsignedNZ
    rw [hcf true]
    rfl

/-- C8 witness: the zero-to-NonZero behaviour at the concrete target
NonZeroI8 with f32 zeroes and the f32 → i8 precomputed bound 127. -/
theorem zero_to_nonzero_spec_witness :
    castIntToNonZero i8 0 = .failed 0
    ∧ closestPrimNZ i8 0 = 1
    ∧ castFloatToNonZero f32fmt i8 (.fin 127) ⟨false, 0, 0⟩ = .failed ⟨false, 0, 0⟩
    ∧ castFloatToNonZero f32fmt i8 (.fin 127) ⟨true, 0, 0⟩ = .failed ⟨true, 0, 0⟩
    ∧ closestFloatSignedNZ f32fmt i8 (.fin 127) ⟨false, 0, 0⟩ = 1
    ∧ closestFloatSignedNZ f32fmt i8 (.fin 127) ⟨true, 0, 0⟩ = -1
    ∧ closestFloatUnsignedNZ f32fmt i8 (.fin 127) ⟨false, 0, 0⟩ = 1
    ∧ closestFloatUnsignedNZ f32fmt i8 (.fin 127) ⟨true, 0, 0⟩ = 1 :=
  zero_to_nonzero_spec i8 f32fmt (.fin 127) (show (0 : Int) ≤ 127 by decide)

/-- C10: casting any strictly negative integer, or any finite strictly
negative float, to an unsigned NonZero target and taking `closest` yields
exactly 1: the underlying primitive closest saturates to the unsigned
minimum 0, and that zero is substituted by 1 — never by any other value. -/
theorem negative_to_unsigned_nonzero_closest_one :
    (∀ (t : IntType) (x : Int), t.signed = false → x < 0 → closestPrimNZ t x = 1)
    ∧ (∀ (fmt : FPFormat) (t : IntType) (maxB : MaxBound) (f : FP),
        t.signed = false → f.isFinite fmt → f.val fmt < 0 →
        closestFloatUnsignedNZ fmt t maxB f = 1) := by
  constructor
  · exact negative_int_closest_helper
  · intro fmt t maxB f hu hfin hneg
    have hmin : t.min = 0 := by
      unfold IntType.min
      rw [hu]
      simp
    have hge : fgeMin fmt f t.min = false := by
      cases h : fgeMin fmt f t.min
      · rfl
      · refine absurd ((fgeMin_iff fmt f t.min hfin).mp h) ?_
        rw [hmin]
        push_cast
        linarith
    have hr : roundQ (f.val fmt) ≤ 0 := roundQ_nonpos _ hneg
    have hclamp : t.clamp (roundQ (f.val fmt)) = 0 := by
      unfold IntType.clamp
      rw [hmin, max_eq_left hr, min_eq_right t.max_nonneg]
    have hcast : closestFloatIntCast fmt t maxB f = 0 := by
      unfold closestFloatIntCast castFloatToInt
      rw [if_neg (by rw [hge]; simp)]
      rw [show closestOr (closestFloatIntErr fmt t)
        (Except.error (⟨f, f.asInt fmt t⟩ : LossyCastError FP Int))
        = closestFloatIntErr fmt t ⟨f, f.asInt fmt t⟩ from rfl]
      unfold closestFloatIntErr
      rw [FP.isNaNb_eq_false fmt f hfin, FP.isPosInfb_eq_false fmt f hfin,
        FP.isNegInfb_eq_false fmt f hfin]
      simp only [Bool.false_eq_true, if_false]
      rw [iroundScaled_eq _ _ fmt.scale_pos]
      exact hclamp
    unfold closestFloatUnsignedNZ
    rw [hcast]
    rfl

/-- C1 (code evaluation): contrary to the spec and the crate's own `Cast`
documentation, `cast!(float_to_self ...)` returns the `Err` outcome on a NaN
source — the explicit `is_nan` branch maps NaN to
`Err(LossyCastError { from: self, to: self })`, shown here on an f32 NaN bit
pattern and an f64 NaN bit pattern. -/
theorem nan_float_to_self_is_error :
    castFloatSame f32fmt ⟨false, 255, 1⟩
      = .error ⟨⟨false, 255, 1⟩, ⟨false, 255, 1⟩⟩
    ∧ FP.isNaNb f32fmt ⟨false, 255, 1⟩ = true
    ∧ castFloatSame f64fmt ⟨false, 2047, 1⟩
      = .error ⟨⟨false, 2047, 1⟩, ⟨false, 2047, 1⟩⟩
    ∧ FP.isNaNb f64fmt ⟨false, 2047, 1⟩ = true := by
  decide

/-- C9 (code evaluation): `bitwise` does not return the source's bit pattern
at `-0.0f32 → u32`.  The cast classifies `-0.0` as exact with value 0; the
Ok branch then recovers "the original" by the value-level back-cast
`0u32 as f32 = +0.0`, whose bits are 0 — while the original pattern
reinterpreted is `2147483648`. -/
theorem bitwise_negzero_f32_u32 :
    castFloatToInt f32fmt u32 (.fin 4294967040) ⟨true, 0, 0⟩ = .ok 0
    ∧ bitwiseFloatToInt f32fmt u32 (.fin 4294967040) ⟨true, 0, 0⟩ = 0
    ∧ FP.toBits f32fmt ⟨true, 0, 0⟩ = 2147483648
    ∧ (0 : Nat) ≠ 2147483648 := by
  decide

end Cove
